import Mathlib

/-!
Shallow embedding of `src/juce/Source/Audio/AudioAnalyzer.{h,cpp}` (the
shmui real-time audio analysis engine) and proofs about it.

Modelling conventions:
* `float` arithmetic is modelled over `ℝ` (exact real arithmetic, no
  floating-point rounding).
* C++ `int` indices and counters are modelled over `ℕ` (and `ℤ` where a
  negative value is observable, e.g. the `numSamples` argument of
  `pushSamples`).
* The external library transform `juce::dsp::FFT::
  performFrequencyOnlyForwardTransform` is not repository code; it is
  modelled as an abstract parameter `fftImpl : List ℝ → List ℝ` mapping the
  windowed time-domain frame to the magnitude buffer that the analyzer then
  reads (the zero-padded imaginary half of `fftData` is part of that library
  call's in-place convention and is absorbed into `fftImpl`).
* The analyzer object is a record `AudioAnalyzer`; each C++ member function
  becomes a Lean function from the record (and its arguments) to the updated
  record or the returned value.  The extra field `fftCount` is ghost
  instrumentation counting invocations of `performFFT`; no source behaviour
  depends on it.
-/

namespace shmui

/-- Truncation clamp modelling `juce::jlimit (lower, upper, value)`:
`value < lower ? lower : (upper < value ? upper : value)`. -/
noncomputable def jlimit (lo hi v : ℝ) : ℝ :=
  if v < lo then lo else if hi < v then hi else v

/-- `AudioAnalyzer.h`: FFT size for waveform mode (`1 << 8`). -/
def kWaveformFFTSize : ℕ := 256

/-- `AudioAnalyzer.h`: FFT size for spectrum mode (`1 << 11`). -/
def kSpectrumFFTSize : ℕ := 2048

/-- `AudioAnalyzer.h`: default smoothing time constant `0.8f`. -/
noncomputable def kDefaultSmoothing : ℝ := 0.8

/-- `AudioAnalyzer.h`: exponential smoothing factor for volume, `0.2f`. -/
noncomputable def kVolumeSmoothingFactor : ℝ := 0.2

/-- `AudioAnalyzer.h`: dB normalization floor, `-100.0f`. -/
noncomputable def kMinDb : ℝ := -100

/-- `AudioAnalyzer.h`: dB normalization ceiling, `-10.0f`. -/
noncomputable def kMaxDb : ℝ := -10

/-- `AudioAnalyzer.h`: analysis mode selecting the FFT size. -/
inductive AnalysisMode where
  | Waveform
  | Spectrum
deriving DecidableEq

/-- State of a `shmui::AudioAnalyzer` object.  Fields mirror the private
members of the C++ class (`AudioAnalyzer.h` lines 230-255); the scratch
buffer `fftData` is not stored because `performFFT` recomputes it from the
fifo on every call, and `fftCount` is ghost instrumentation counting the
spectral transforms performed. -/
@[ext] structure AudioAnalyzer where
  fftSize : ℕ
  fifo : List ℝ
  fifoIndex : ℕ
  smoothedFrequencyData : List ℝ
  smoothedRMS : ℝ
  peakLevel : ℝ
  smoothingTimeConstant : ℝ
  sensitivity : ℝ
  monoMixBuffer : List ℝ
  fftCount : ℕ

namespace AudioAnalyzer

/-- `AudioAnalyzer::AudioAnalyzer (AnalysisMode mode)` (AudioAnalyzer.cpp
lines 19-40).  Note that the constructor sizes `fftData`, `fifo` and
`smoothedFrequencyData` but never resizes `monoMixBuffer`, which therefore
stays empty. -/
noncomputable def init (mode : AnalysisMode) : AudioAnalyzer :=
  let fftSize := if mode = AnalysisMode.Spectrum then kSpectrumFFTSize
                 else kWaveformFFTSize
  { fftSize := fftSize
    fifo := List.replicate fftSize 0
    fifoIndex := 0
    smoothedFrequencyData := List.replicate (fftSize / 2) 0
    smoothedRMS := 0
    peakLevel := 0
    smoothingTimeConstant := kDefaultSmoothing
    sensitivity := 1
    monoMixBuffer := []
    fftCount := 0 }

/-- `AudioAnalyzer::calculateRMS` (AudioAnalyzer.cpp lines 253-265):
returns `0` when `numSamples <= 0`, otherwise the square root of the mean
of squares of the first `numSamples` samples. -/
noncomputable def calculateRMS (samples : List ℝ) (numSamples : ℤ) : ℝ :=
  if numSamples ≤ 0 then 0
  else
    Real.sqrt ((((samples.take numSamples.toNat).map fun x => x * x).sum) /
      (numSamples : ℝ))

/-- `AudioAnalyzer::smoothValue` (AudioAnalyzer.cpp lines 281-284). -/
noncomputable def smoothValue (current target factor : ℝ) : ℝ :=
  current + (target - current) * factor

/-- Hann window coefficient computed inside `AudioAnalyzer::performFFT`
(AudioAnalyzer.cpp lines 298-303): `0.5 * (1 - cos(2*pi*i/(fftSize-1)))`. -/
noncomputable def hannWindow (fftSize i : ℕ) : ℝ :=
  0.5 * (1 - Real.cos (2 * Real.pi * (i : ℝ) / ((fftSize : ℝ) - 1)))

/-- The windowed time-domain frame handed to the FFT: the fifo with the
Hann window applied elementwise (AudioAnalyzer.cpp lines 292-303). -/
noncomputable def windowedFrame (s : AudioAnalyzer) : List ℝ :=
  s.fifo.mapIdx fun i x => x * hannWindow s.fftSize i

/-- `AudioAnalyzer::updateSmoothedData` (AudioAnalyzer.cpp lines 312-336):
for each bin `i < fftSize/2`, reads the magnitude `fftData[i]`, normalizes
by `fftSize`, scales by 2, clamps to `[0,1]`, and exponentially smooths it
into the published array. -/
noncomputable def updateSmoothedData (s : AudioAnalyzer) (fftData : List ℝ) :
    AudioAnalyzer :=
  let smooth := s.smoothingTimeConstant
  let numBins := s.fftSize / 2
  { s with smoothedFrequencyData :=
      (List.range numBins).map fun i =>
        let magnitude := fftData.getD i 0
        let normalizedMagnitude := magnitude / (s.fftSize : ℝ)
        let scaledValue := jlimit 0 1 (normalizedMagnitude * 2)
        s.smoothedFrequencyData.getD i 0 * smooth + scaledValue * (1 - smooth) }

/-- `AudioAnalyzer::performFFT` (AudioAnalyzer.cpp lines 289-310): windows
the fifo, runs the external transform (`fftImpl`), and updates the smoothed
data.  The ghost counter `fftCount` is incremented. -/
noncomputable def performFFT (fftImpl : List ℝ → List ℝ) (s : AudioAnalyzer) :
    AudioAnalyzer :=
  { s.updateSmoothedData (fftImpl s.windowedFrame) with
      fftCount := s.fftCount + 1 }

/-- One iteration of the fifo-fill loop of `AudioAnalyzer::pushSamples`
(AudioAnalyzer.cpp lines 64-73): write the sample at `fifoIndex`, increment
it, and when it reaches `fftSize`, perform the FFT and reset it to `0`. -/
noncomputable def pushFifoStep (fftImpl : List ℝ → List ℝ)
    (s : AudioAnalyzer) (x : ℝ) : AudioAnalyzer :=
  let s1 := { s with fifo := s.fifo.set s.fifoIndex x
                     fifoIndex := s.fifoIndex + 1 }
  if s.fftSize ≤ s1.fifoIndex then
    { s1.performFFT fftImpl with fifoIndex := 0 }
  else s1

/-- `AudioAnalyzer::pushSamples` (AudioAnalyzer.cpp lines 45-74): smooths
the RMS of the block into `smoothedRMS`, stores the block peak into
`peakLevel`, then feeds each sample through the fifo (triggering FFTs).
The loops `for i in 0..numSamples` over `samples[i]` are modelled as
traversals of `samples.take numSamples.toNat`. -/
noncomputable def pushSamples (fftImpl : List ℝ → List ℝ) (s : AudioAnalyzer)
    (samples : List ℝ) (numSamples : ℤ) : AudioAnalyzer :=
  let taken := samples.take numSamples.toNat
  let rms := calculateRMS samples numSamples
  let newRMS := smoothValue s.smoothedRMS rms kVolumeSmoothingFactor
  let peak := taken.foldl (fun p x => max p |x|) 0
  let s1 := { s with smoothedRMS := newRMS, peakLevel := peak }
  taken.foldl (pushFifoStep fftImpl) s1

/-- `AudioAnalyzer::processBlock` (AudioAnalyzer.cpp lines 76-116).  The
multi-channel buffer is a list of channels (each a list of samples of
length `numSamples`).  `kMaxBufferSize` is referenced by the source but not
defined anywhere under the repository, so it is taken as a parameter here.
The mono mixdown (clear, accumulate each channel, scale by `1/numChannels`)
collapses to the per-index mean written into the scratch buffer.  The
source writes `monoMixBuffer[i]` for every `i < samplesToProcess` without
any bounds check; when `samplesToProcess` exceeds the scratch buffer's
length those writes are out of bounds (undefined behaviour), which this
model makes explicit by returning `none`. -/
noncomputable def processBlock (fftImpl : List ℝ → List ℝ)
    (kMaxBufferSize : ℕ) (s : AudioAnalyzer) (channels : List (List ℝ))
    (numSamples : ℕ) : Option AudioAnalyzer :=
  let numChannels := channels.length
  if numChannels = 0 ∨ numSamples = 0 then some s
  else if numChannels = 1 then
    some (s.pushSamples fftImpl (channels.getD 0 []) (numSamples : ℤ))
  else
    let samplesToProcess := min numSamples kMaxBufferSize
    if samplesToProcess ≤ s.monoMixBuffer.length then
      let mixed := (List.range samplesToProcess).map fun i =>
        ((channels.map fun ch => ch.getD i 0).sum) * (1 / (numChannels : ℝ))
      let s1 := { s with
        monoMixBuffer := mixed ++ s.monoMixBuffer.drop samplesToProcess }
      some (s1.pushSamples fftImpl mixed (samplesToProcess : ℤ))
    else none

/-- `AudioAnalyzer::getFrequencyData` (AudioAnalyzer.cpp lines 121-136):
copy of the smoothed array; when the sensitivity differs from `1` every
value is multiplied by it and clamped to `[0,1]`. -/
noncomputable def getFrequencyData (s : AudioAnalyzer) : List ℝ :=
  if s.sensitivity = 1 then s.smoothedFrequencyData
  else s.smoothedFrequencyData.map fun v => jlimit 0 1 (v * s.sensitivity)

/-- `AudioAnalyzer::getMirroredFrequencyData` (AudioAnalyzer.cpp lines
138-174).  `int(totalBins * 0.05f)` and `int(totalBins * 0.40f)` are
modelled as the exact natural-number floors `totalBins * 5 / 100` and
`totalBins * 40 / 100`, which agree with the float computation for every
bin count the analyzer can have (128 or 1024, and in fact for all counts
far beyond them).  Each of the two loops appends `freqData[startFreq + i]`
under the guard `startFreq + i < totalBins`, the first with `i` descending
from `halfLength - 1`, the second with `i` ascending from `0`. -/
noncomputable def getMirroredFrequencyData (s : AudioAnalyzer) : List ℝ :=
  let freqData := s.getFrequencyData
  let totalBins := freqData.length
  let startFreq := totalBins * 5 / 100
  let endFreq := totalBins * 40 / 100
  let rangeSize := endFreq - startFreq
  let halfLength := rangeSize / 2
  let leftLoop := ((List.range halfLength).reverse).filterMap fun i =>
    if startFreq + i < totalBins then freqData[startFreq + i]? else none
  let rightLoop := (List.range halfLength).filterMap fun i =>
    if startFreq + i < totalBins then freqData[startFreq + i]? else none
  leftLoop ++ rightLoop

/-- Modelled from the spec: what section 4.3 of the specification says
`getMirroredSpectrum` does — select the sub-range from 5% to 40% of the
bins, then emit the reversed left half of that sub-range followed by the
forward right half of that sub-range.  Written for refinement comparison
against `getMirroredFrequencyData`, which is translated from the source. -/
noncomputable def specMirroredFrequencyData (s : AudioAnalyzer) : List ℝ :=
  let freqData := s.getFrequencyData
  let totalBins := freqData.length
  let startFreq := totalBins * 5 / 100
  let endFreq := totalBins * 40 / 100
  let rangeSize := endFreq - startFreq
  let halfLength := rangeSize / 2
  let sub := (freqData.drop startFreq).take rangeSize
  (sub.take halfLength).reverse ++ sub.drop halfLength

/-- `AudioAnalyzer::getRMSLevel` (AudioAnalyzer.cpp lines 176-179). -/
noncomputable def getRMSLevel (s : AudioAnalyzer) : ℝ := s.smoothedRMS

/-- `AudioAnalyzer::getPeakLevel` (AudioAnalyzer.cpp lines 181-184). -/
noncomputable def getPeakLevel (s : AudioAnalyzer) : ℝ := s.peakLevel

/-- `AudioAnalyzer::normalizeDb` (AudioAnalyzer.cpp lines 267-279): clamp
to `[kMinDb, kMaxDb]`, rescale linearly into `[0,1]`, take the square
root.  The float `-infinity` early-return of the source has no real-number
counterpart; its callers only pass finite dB values (the `magnitude > 0`
guard substitutes `kMinDb` for the would-be `-infinity`), and on `[kMinDb,
∞)` inputs the formula below agrees with the source on every path. -/
noncomputable def normalizeDb (value : ℝ) : ℝ :=
  let clamped := jlimit kMinDb kMaxDb value
  let normalized := 1 - (clamped * -1) / 100
  Real.sqrt normalized

/-- The dB conversion applied per bin inside `getFrequencyBands`
(AudioAnalyzer.cpp lines 214-216): `magnitude > 0 ? 20*log10(magnitude) :
kMinDb`. -/
noncomputable def dbOfMagnitude (magnitude : ℝ) : ℝ :=
  if 0 < magnitude then 20 * Real.logb 10 magnitude else kMinDb

/-- The list of bin indices actually visited by chunk `i` of
`AudioAnalyzer::getFrequencyBands` (AudioAnalyzer.cpp lines 196-219): the
indices `j` with `start <= j < end` that pass the bounds check
`j < smoothedFrequencyData.size()`. -/
def bandBins (s : AudioAnalyzer) (numBands loPass hiPass i : ℕ) : List ℕ :=
  let sliceLength := hiPass - loPass
  let chunkSize := (sliceLength + numBands - 1) / numBands
  let start := loPass + i * chunkSize
  let stop := min (loPass + (i + 1) * chunkSize) hiPass
  (List.range' start (stop - start)).filter fun j =>
    j < s.smoothedFrequencyData.length

/-- The value of band `i` before sensitivity scaling (AudioAnalyzer.cpp
lines 199-223): the mean of the dB-normalized magnitudes of the bins the
chunk visits, or `0` when the chunk visits none. -/
noncomputable def bandValue (s : AudioAnalyzer) (numBands loPass hiPass i : ℕ) :
    ℝ :=
  let idxs := s.bandBins numBands loPass hiPass i
  let vals := idxs.map fun j =>
    normalizeDb (dbOfMagnitude (s.smoothedFrequencyData.getD j 0))
  if 0 < idxs.length then vals.sum / (idxs.length : ℝ) else 0

/-- `AudioAnalyzer::getFrequencyBands` (AudioAnalyzer.cpp lines 186-234):
one value per band, followed by the sensitivity scale-and-clamp applied
when the sensitivity differs from `1`.  The C++ `int` arguments are
modelled over `ℕ`; all claims about this function concern non-negative
arguments, where the two agree. -/
noncomputable def getFrequencyBands (s : AudioAnalyzer)
    (numBands loPass hiPass : ℕ) : List ℝ :=
  let bands := (List.range numBands).map (s.bandValue numBands loPass hiPass)
  if s.sensitivity = 1 then bands
  else bands.map fun v => jlimit 0 1 (v * s.sensitivity)

/-- `AudioAnalyzer::setSmoothingTimeConstant` (AudioAnalyzer.cpp lines
239-243). -/
noncomputable def setSmoothingTimeConstant (s : AudioAnalyzer)
    (smoothing : ℝ) : AudioAnalyzer :=
  { s with smoothingTimeConstant := jlimit 0 1 smoothing }

/-- `AudioAnalyzer::setSensitivity` (AudioAnalyzer.cpp lines 245-248):
stores `max(0, newSensitivity)`. -/
noncomputable def setSensitivity (s : AudioAnalyzer) (newSensitivity : ℝ) :
    AudioAnalyzer :=
  { s with sensitivity := max 0 newSensitivity }

/-- The left half of the 5%-40% sub-range that both output loops of
`getMirroredFrequencyData` read from: bins `startFreq + i` for
`i < halfLength`, in ascending order. -/
noncomputable def mirrorHalf (s : AudioAnalyzer) : List ℝ :=
  let freqData := s.getFrequencyData
  let totalBins := freqData.length
  let startFreq := totalBins * 5 / 100
  let halfLength := (totalBins * 40 / 100 - startFreq) / 2
  (List.range halfLength).map fun i => freqData.getD (startFreq + i) 0

end AudioAnalyzer

/-- Invariant on the published spectrum: every stored smoothed bin lies in
`[0,1]`. -/
def BinsInv (s : AudioAnalyzer) : Prop :=
  ∀ v ∈ s.smoothedFrequencyData, 0 ≤ v ∧ v ≤ 1

/-- The configuration-and-spectrum state invariant of the analyzer: the
smoothing time constant lies in `[0,1]`, the sensitivity is nonnegative,
and every stored smoothed bin lies in `[0,1]`. -/
def ConfigSpectrumInv (s : AudioAnalyzer) : Prop :=
  0 ≤ s.smoothingTimeConstant ∧ s.smoothingTimeConstant ≤ 1 ∧
    0 ≤ s.sensitivity ∧ BinsInv s

/-- Invariant on the published level scalars: the stored RMS and peak both
lie in `[0,1]`. -/
def LevelInv (s : AudioAnalyzer) : Prop :=
  0 ≤ s.smoothedRMS ∧ s.smoothedRMS ≤ 1 ∧ 0 ≤ s.peakLevel ∧ s.peakLevel ≤ 1

/-- States reachable from a freshly constructed analyzer by a sequence of
`pushSamples` calls whose sample values all satisfy `P`. -/
inductive Reachable (fftImpl : List ℝ → List ℝ) (P : ℝ → Prop) :
    AudioAnalyzer → Prop where
  | base (mode : AnalysisMode) : Reachable fftImpl P (AudioAnalyzer.init mode)
  | push (s : AudioAnalyzer) (samples : List ℝ) (numSamples : ℤ) :
      Reachable fftImpl P s → (∀ x ∈ samples, P x) →
      Reachable fftImpl P
        (AudioAnalyzer.pushSamples fftImpl s samples numSamples)

/-- A waveform-mode analyzer whose 128 stored bins hold the pairwise
distinct values `i / 128`; used to separate the source's mirroring from the
one the specification describes. -/
noncomputable def distinctState : AudioAnalyzer :=
  { AudioAnalyzer.init AnalysisMode.Waveform with
      smoothedFrequencyData :=
        (List.range 128).map fun i : ℕ => (i : ℝ) / 128 }

/-- A waveform-mode analyzer with sensitivity `2` whose first two stored
bins hold `0.4` and `0.6`; the concrete scenario of the specification's
sensitivity-clamping property. -/
noncomputable def sensState : AudioAnalyzer :=
  { AudioAnalyzer.init AnalysisMode.Waveform with
      smoothedFrequencyData := [0.4, 0.6]
      sensitivity := 2 }

/-- The analyzer obtained from a fresh waveform-mode analyzer by pushing the
single sample `1`; its stored peak level is `1`. -/
noncomputable def pushedOne : AudioAnalyzer :=
  AudioAnalyzer.pushSamples id (AudioAnalyzer.init AnalysisMode.Waveform) [1] 1

namespace AudioAnalyzer

theorem jlimit_mem {lo hi : ℝ} (v : ℝ) (h : lo ≤ hi) :
    lo ≤ jlimit lo hi v ∧ jlimit lo hi v ≤ hi := by
  unfold jlimit
  split_ifs with h1 h2
  · exact ⟨le_refl lo, h⟩
  · exact ⟨h, le_refl hi⟩
  · exact ⟨le_of_not_lt h1, le_of_not_lt h2⟩

theorem jlimit_of_mem {lo hi v : ℝ} (h1 : lo ≤ v) (h2 : v ≤ hi) :
    jlimit lo hi v = v := by
  unfold jlimit
  rw [if_neg (not_lt.mpr h1), if_neg (not_lt.mpr h2)]

theorem getD_mem_Icc {l : List ℝ} (h : ∀ v ∈ l, 0 ≤ v ∧ v ≤ 1) (i : ℕ) :
    0 ≤ l.getD i 0 ∧ l.getD i 0 ≤ 1 := by
  rcases lt_or_le i l.length with hi | hi
  · rw [List.getD_eq_getElem l 0 hi]
    exact h _ (List.getElem_mem hi)
  · rw [List.getD_eq_default l 0 hi]
    norm_num

theorem getD_map_range (f : ℕ → ℝ) (d : ℝ) {i n : ℕ} (h : i < n) :
    (((List.range n).map f).getD i d) = f i := by
  rw [List.getD_eq_getElem?_getD, List.getElem?_map, List.getElem?_range h]
  rfl

theorem pushFifoStep_preserved (f : List ℝ → List ℝ) (s : AudioAnalyzer)
    (x : ℝ) :
    (pushFifoStep f s x).fftSize = s.fftSize ∧
    (pushFifoStep f s x).smoothingTimeConstant = s.smoothingTimeConstant ∧
    (pushFifoStep f s x).sensitivity = s.sensitivity ∧
    (pushFifoStep f s x).smoothedRMS = s.smoothedRMS ∧
    (pushFifoStep f s x).peakLevel = s.peakLevel ∧
    (pushFifoStep f s x).monoMixBuffer = s.monoMixBuffer := by
  simp only [pushFifoStep]
  split_ifs with hc
  · simp [performFFT, updateSmoothedData]
  · simp

theorem foldl_pushFifoStep_preserved (f : List ℝ → List ℝ) (xs : List ℝ) :
    ∀ s : AudioAnalyzer,
      (xs.foldl (pushFifoStep f) s).fftSize = s.fftSize ∧
      (xs.foldl (pushFifoStep f) s).smoothingTimeConstant =
        s.smoothingTimeConstant ∧
      (xs.foldl (pushFifoStep f) s).sensitivity = s.sensitivity ∧
      (xs.foldl (pushFifoStep f) s).smoothedRMS = s.smoothedRMS ∧
      (xs.foldl (pushFifoStep f) s).peakLevel = s.peakLevel ∧
      (xs.foldl (pushFifoStep f) s).monoMixBuffer = s.monoMixBuffer := by
  induction xs with
  | nil => intro s; exact ⟨rfl, rfl, rfl, rfl, rfl, rfl⟩
  | cons x xs ih =>
    intro s
    have h1 := pushFifoStep_preserved f s x
    have h2 := ih (pushFifoStep f s x)
    rw [List.foldl_cons]
    exact ⟨h2.1.trans h1.1, h2.2.1.trans h1.2.1, h2.2.2.1.trans h1.2.2.1,
      h2.2.2.2.1.trans h1.2.2.2.1, h2.2.2.2.2.1.trans h1.2.2.2.2.1,
      h2.2.2.2.2.2.trans h1.2.2.2.2.2⟩

theorem updateSmoothedData_bins {s : AudioAnalyzer} (fftData : List ℝ)
    (h0 : 0 ≤ s.smoothingTimeConstant) (h1 : s.smoothingTimeConstant ≤ 1)
    (hb : BinsInv s) : BinsInv (s.updateSmoothedData fftData) := by
  intro v hv
  simp only [updateSmoothedData, List.mem_map, List.mem_range] at hv
  obtain ⟨i, hi, rfl⟩ := hv
  have ha := getD_mem_Icc hb i
  have hc := jlimit_mem (fftData.getD i 0 / (s.fftSize : ℝ) * 2)
    (by norm_num : (0:ℝ) ≤ 1)
  constructor
  · nlinarith [ha.1, ha.2, hc.1, hc.2]
  · nlinarith [ha.1, ha.2, hc.1, hc.2]

theorem pushFifoStep_bins (f : List ℝ → List ℝ) {s : AudioAnalyzer} (x : ℝ)
    (h0 : 0 ≤ s.smoothingTimeConstant) (h1 : s.smoothingTimeConstant ≤ 1)
    (hb : BinsInv s) : BinsInv (pushFifoStep f s x) := by
  simp only [pushFifoStep]
  split_ifs with hc
  · intro v hv
    exact updateSmoothedData_bins _ h0 h1 hb v hv
  · exact hb

theorem pushFifoStep_csinv (f : List ℝ → List ℝ) {s : AudioAnalyzer} (x : ℝ)
    (h : ConfigSpectrumInv s) : ConfigSpectrumInv (pushFifoStep f s x) := by
  obtain ⟨h0, h1, h2, hb⟩ := h
  have hp := pushFifoStep_preserved f s x
  refine ⟨?_, ?_, ?_, ?_⟩
  · rw [hp.2.1]; exact h0
  · rw [hp.2.1]; exact h1
  · rw [hp.2.2.1]; exact h2
  · exact pushFifoStep_bins f x h0 h1 hb

theorem foldl_pushFifoStep_csinv (f : List ℝ → List ℝ) (xs : List ℝ) :
    ∀ s : AudioAnalyzer, ConfigSpectrumInv s →
      ConfigSpectrumInv (xs.foldl (pushFifoStep f) s) := by
  induction xs with
  | nil => intro s h; exact h
  | cons x xs ih =>
    intro s h
    rw [List.foldl_cons]
    exact ih _ (pushFifoStep_csinv f x h)

theorem pushSamples_csinv (f : List ℝ → List ℝ) {s : AudioAnalyzer}
    (samples : List ℝ) (numSamples : ℤ) (h : ConfigSpectrumInv s) :
    ConfigSpectrumInv (pushSamples f s samples numSamples) := by
  obtain ⟨h0, h1, h2, hb⟩ := h
  exact foldl_pushFifoStep_csinv f _ _ ⟨h0, h1, h2, hb⟩

theorem foldl_pushFifoStep_counts (f : List ℝ → List ℝ) (xs : List ℝ) :
    ∀ s : AudioAnalyzer, 0 < s.fftSize → s.fifoIndex < s.fftSize →
      (xs.foldl (pushFifoStep f) s).fifoIndex =
        (s.fifoIndex + xs.length) % s.fftSize ∧
      (xs.foldl (pushFifoStep f) s).fftCount =
        s.fftCount + (s.fifoIndex + xs.length) / s.fftSize := by
  induction xs with
  | nil =>
    intro s hN hidx
    rw [List.foldl_nil, List.length_nil, Nat.add_zero, Nat.mod_eq_of_lt hidx,
      Nat.div_eq_of_lt hidx, Nat.add_zero]
    exact ⟨rfl, rfl⟩
  | cons x xs ih =>
    intro s hN hidx
    rw [List.foldl_cons, List.length_cons]
    by_cases hc : s.fftSize ≤ s.fifoIndex + 1
    · have heq : s.fifoIndex + 1 = s.fftSize := le_antisymm hidx hc
      have hstep : (pushFifoStep f s x).fifoIndex = 0 ∧
          (pushFifoStep f s x).fftCount = s.fftCount + 1 ∧
          (pushFifoStep f s x).fftSize = s.fftSize := by
        simp only [pushFifoStep]
        rw [if_pos hc]
        exact ⟨rfl, rfl, rfl⟩
      have hrec := ih (pushFifoStep f s x)
        (by rw [hstep.2.2]; exact hN) (by rw [hstep.1, hstep.2.2]; exact hN)
      rw [hstep.1, hstep.2.1, hstep.2.2, Nat.zero_add] at hrec
      have harg : s.fifoIndex + (xs.length + 1) = xs.length + s.fftSize := by
        omega
      rw [harg]
      constructor
      · rw [hrec.1, Nat.add_comm xs.length s.fftSize, Nat.add_mod_left]
      · rw [hrec.2, Nat.add_div_right _ hN]
        omega
    · have hlt : s.fifoIndex + 1 < s.fftSize := lt_of_not_le hc
      have hstep : pushFifoStep f s x =
          { s with fifo := s.fifo.set s.fifoIndex x
                   fifoIndex := s.fifoIndex + 1 } := by
        simp only [pushFifoStep]
        rw [if_neg hc]
      rw [hstep]
      have hrec := ih { s with fifo := s.fifo.set s.fifoIndex x
                               fifoIndex := s.fifoIndex + 1 } hN hlt
      have harg : s.fifoIndex + 1 + xs.length = s.fifoIndex + (xs.length + 1) :=
        by omega
      rw [harg] at hrec
      exact hrec

theorem calculateRMS_of_nonpos {samples : List ℝ} {n : ℤ} (h : n ≤ 0) :
    calculateRMS samples n = 0 := by
  unfold calculateRMS
  rw [if_pos h]

theorem calculateRMS_mem (samples : List ℝ) (n : ℤ)
    (h : ∀ x ∈ samples, |x| ≤ 1) :
    0 ≤ calculateRMS samples n ∧ calculateRMS samples n ≤ 1 := by
  unfold calculateRMS
  split_ifs with hn
  · norm_num
  · have hn' : (0 : ℝ) < (n : ℝ) := by
      have : (0 : ℤ) < n := lt_of_not_le hn
      exact_mod_cast this
    refine ⟨Real.sqrt_nonneg _, ?_⟩
    rw [Real.sqrt_le_one]
    rw [div_le_one hn']
    have hsum : (((samples.take n.toNat).map fun x => x * x)).sum ≤
        (((samples.take n.toNat).map fun x => x * x)).length • (1 : ℝ) := by
      apply List.sum_le_card_nsmul
      intro y hy
      obtain ⟨x, hx, rfl⟩ := List.mem_map.mp hy
      have hx1 := h x (List.mem_of_mem_take hx)
      nlinarith [abs_le.mp hx1]
    have hlen : (((samples.take n.toNat).map fun x => x * x)).length ≤
        n.toNat := by
      rw [List.length_map, List.length_take]
      exact min_le_left _ _
    have hcast : ((n.toNat : ℕ) : ℝ) ≤ (n : ℝ) := by
      have h1 : (0 : ℤ) ≤ n := le_of_lt (lt_of_not_le hn)
      have h2 := Int.toNat_of_nonneg h1
      exact_mod_cast h2.le
    calc (((samples.take n.toNat).map fun x => x * x)).sum
        ≤ (((samples.take n.toNat).map fun x => x * x)).length • (1 : ℝ) :=
          hsum
      _ = ((((samples.take n.toNat).map fun x => x * x)).length : ℝ) := by
          rw [nsmul_eq_mul, mul_one]
      _ ≤ ((n.toNat : ℕ) : ℝ) := by exact_mod_cast hlen
      _ ≤ (n : ℝ) := hcast

theorem foldl_max_abs_nonneg (l : List ℝ) :
    ∀ p : ℝ, 0 ≤ p → 0 ≤ l.foldl (fun p x => max p |x|) p := by
  induction l with
  | nil => intro p hp; exact hp
  | cons x l ih =>
    intro p hp
    rw [List.foldl_cons]
    exact ih _ (le_trans hp (le_max_left _ _))

theorem foldl_max_abs_le_one (l : List ℝ) :
    ∀ p : ℝ, (∀ x ∈ l, |x| ≤ 1) → p ≤ 1 →
      l.foldl (fun p x => max p |x|) p ≤ 1 := by
  induction l with
  | nil => intro p _ hp; exact hp
  | cons x l ih =>
    intro p hl hp
    rw [List.foldl_cons]
    exact ih _ (fun y hy => hl y (List.mem_cons_of_mem _ hy))
      (max_le hp (hl x (List.mem_cons_self _ _)))

theorem smoothValue_mem {c t : ℝ} (hc0 : 0 ≤ c) (hc1 : c ≤ 1) (ht0 : 0 ≤ t)
    (ht1 : t ≤ 1) :
    0 ≤ smoothValue c t kVolumeSmoothingFactor ∧
      smoothValue c t kVolumeSmoothingFactor ≤ 1 := by
  unfold smoothValue kVolumeSmoothingFactor
  constructor <;> nlinarith

theorem pushSamples_fields (f : List ℝ → List ℝ) (s : AudioAnalyzer)
    (samples : List ℝ) (n : ℤ) :
    (pushSamples f s samples n).smoothedRMS =
      smoothValue s.smoothedRMS (calculateRMS samples n)
        kVolumeSmoothingFactor ∧
    (pushSamples f s samples n).peakLevel =
      (samples.take n.toNat).foldl (fun p x => max p |x|) 0 := by
  simp only [pushSamples]
  exact ⟨(foldl_pushFifoStep_preserved f _ _).2.2.2.1,
    (foldl_pushFifoStep_preserved f _ _).2.2.2.2.1⟩

theorem pushSamples_counts (f : List ℝ → List ℝ) (s : AudioAnalyzer)
    (samples : List ℝ) (n : ℤ) (hN : 0 < s.fftSize)
    (hidx : s.fifoIndex < s.fftSize) :
    (pushSamples f s samples n).fifoIndex =
      (s.fifoIndex + (samples.take n.toNat).length) % s.fftSize ∧
    (pushSamples f s samples n).fftCount =
      s.fftCount + (s.fifoIndex + (samples.take n.toNat).length) / s.fftSize ∧
    (pushSamples f s samples n).fftSize = s.fftSize := by
  simp only [pushSamples]
  refine ⟨?_, ?_, (foldl_pushFifoStep_preserved f _ _).1⟩
  · exact (foldl_pushFifoStep_counts f (samples.take n.toNat)
      { s with
        smoothedRMS := smoothValue s.smoothedRMS (calculateRMS samples n)
          kVolumeSmoothingFactor,
        peakLevel := (samples.take n.toNat).foldl (fun p x => max p |x|) 0 }
      hN hidx).1
  · exact (foldl_pushFifoStep_counts f (samples.take n.toNat)
      { s with
        smoothedRMS := smoothValue s.smoothedRMS (calculateRMS samples n)
          kVolumeSmoothingFactor,
        peakLevel := (samples.take n.toNat).foldl (fun p x => max p |x|) 0 }
      hN hidx).2

theorem pushSamples_nonpos (f : List ℝ → List ℝ) (s : AudioAnalyzer)
    (samples : List ℝ) (n : ℤ) (hn : n ≤ 0) :
    pushSamples f s samples n =
      { s with smoothedRMS := smoothValue s.smoothedRMS 0
                 kVolumeSmoothingFactor
               peakLevel := 0 } := by
  have ht : samples.take n.toNat = [] := by
    rw [Int.toNat_of_nonpos hn]
    exact List.take_zero samples
  simp only [pushSamples, ht, List.foldl_nil, calculateRMS_of_nonpos hn]

theorem smoothValue_zero (c : ℝ) :
    smoothValue c 0 kVolumeSmoothingFactor = c * (4 / 5) := by
  unfold smoothValue kVolumeSmoothingFactor
  ring_nf

theorem getFrequencyData_length (s : AudioAnalyzer) :
    s.getFrequencyData.length = s.smoothedFrequencyData.length := by
  unfold getFrequencyData
  split_ifs <;> simp

theorem mirror_guard {n i : ℕ}
    (hi : i < (n * 40 / 100 - n * 5 / 100) / 2) : n * 5 / 100 + i < n := by
  have h1 : n * 5 / 100 ≤ n * 40 / 100 :=
    Nat.div_le_div_right (by omega)
  have h2 : n * 40 / 100 ≤ n * 100 / 100 :=
    Nat.div_le_div_right (by omega)
  have h3 : n * 100 / 100 = n := Nat.mul_div_cancel n (by norm_num)
  have h4 : (n * 40 / 100 - n * 5 / 100) / 2 ≤ n * 40 / 100 - n * 5 / 100 :=
    Nat.div_le_self _ _
  omega

theorem filterMap_guard_eq_map (freq : List ℝ) (a : ℕ) (L : List ℕ)
    (hg : ∀ i ∈ L, a + i < freq.length) :
    (L.filterMap fun i =>
        if a + i < freq.length then freq[a + i]? else none) =
      L.map fun i => freq.getD (a + i) 0 := by
  induction L with
  | nil => rfl
  | cons j L ih =>
    have hj := hg j (List.mem_cons_self _ _)
    have hv : freq[a + j]? = some (freq.getD (a + j) 0) := by
      rw [List.getElem?_eq_getElem hj, List.getD_eq_getElem freq 0 hj]
    simp only [List.filterMap_cons, if_pos hj, hv, List.map_cons]
    rw [ih fun i hi => hg i (List.mem_cons_of_mem _ hi)]

theorem mirrored_structure (s : AudioAnalyzer) :
    getMirroredFrequencyData s = (mirrorHalf s).reverse ++ mirrorHalf s := by
  simp only [getMirroredFrequencyData, mirrorHalf]
  have hg : ∀ i ∈ List.range ((s.getFrequencyData.length * 40 / 100 -
      s.getFrequencyData.length * 5 / 100) / 2),
      s.getFrequencyData.length * 5 / 100 + i < s.getFrequencyData.length :=
    fun i hi => mirror_guard (List.mem_range.mp hi)
  have hg' : ∀ i ∈ (List.range ((s.getFrequencyData.length * 40 / 100 -
      s.getFrequencyData.length * 5 / 100) / 2)).reverse,
      s.getFrequencyData.length * 5 / 100 + i < s.getFrequencyData.length :=
    fun i hi => hg i (List.mem_reverse.mp hi)
  rw [filterMap_guard_eq_map _ _ _ hg', filterMap_guard_eq_map _ _ _ hg,
    List.map_reverse]

theorem mirrorHalf_length (s : AudioAnalyzer) :
    (mirrorHalf s).length = (s.getFrequencyData.length * 40 / 100 -
      s.getFrequencyData.length * 5 / 100) / 2 := by
  simp [mirrorHalf]

theorem reverse_append_self_palindrome (l : List ℝ) (k : ℕ)
    (hk : k < (l.reverse ++ l).length) :
    (l.reverse ++ l)[k]? = (l.reverse ++ l)[(l.reverse ++ l).length - 1 - k]? := by
  have hlen : (l.reverse ++ l).length = 2 * l.length := by
    rw [List.length_append, List.length_reverse]
    omega
  rw [hlen] at hk ⊢
  rw [List.getElem?_append, List.getElem?_append, List.length_reverse]
  rcases lt_or_le k l.length with h1 | h1
  · rw [if_pos h1, if_neg (by omega : ¬(2 * l.length - 1 - k < l.length))]
    rw [List.getElem?_reverse h1]
    congr 1
    omega
  · have h2 : 2 * l.length - 1 - k < l.length := by omega
    rw [if_neg (by omega : ¬(k < l.length)), if_pos h2,
      List.getElem?_reverse h2]
    congr 1
    omega

theorem init_eq_waveform : init AnalysisMode.Waveform =
    { fftSize := 256
      fifo := List.replicate 256 0
      fifoIndex := 0
      smoothedFrequencyData := List.replicate 128 0
      smoothedRMS := 0
      peakLevel := 0
      smoothingTimeConstant := kDefaultSmoothing
      sensitivity := 1
      monoMixBuffer := []
      fftCount := 0 } := rfl

theorem init_eq_spectrum : init AnalysisMode.Spectrum =
    { fftSize := 2048
      fifo := List.replicate 2048 0
      fifoIndex := 0
      smoothedFrequencyData := List.replicate 1024 0
      smoothedRMS := 0
      peakLevel := 0
      smoothingTimeConstant := kDefaultSmoothing
      sensitivity := 1
      monoMixBuffer := []
      fftCount := 0 } := rfl

theorem init_fftSize_pos (mode : AnalysisMode) : 0 < (init mode).fftSize := by
  cases mode
  · rw [init_eq_waveform]
    norm_num
  · rw [init_eq_spectrum]
    norm_num

theorem init_csinv (mode : AnalysisMode) : ConfigSpectrumInv (init mode) := by
  have hbins : BinsInv (init mode) := by
    intro v hv
    cases mode
    · rw [init_eq_waveform] at hv
      rw [List.eq_of_mem_replicate hv]
      norm_num
    · rw [init_eq_spectrum] at hv
      rw [List.eq_of_mem_replicate hv]
      norm_num
  cases mode
  · rw [init_eq_waveform] at hbins ⊢
    exact ⟨by unfold kDefaultSmoothing; norm_num,
      by unfold kDefaultSmoothing; norm_num, by norm_num, hbins⟩
  · rw [init_eq_spectrum] at hbins ⊢
    exact ⟨by unfold kDefaultSmoothing; norm_num,
      by unfold kDefaultSmoothing; norm_num, by norm_num, hbins⟩

theorem init_levelinv (mode : AnalysisMode) : LevelInv (init mode) := by
  cases mode
  · rw [init_eq_waveform]
    exact ⟨le_refl 0, by norm_num, le_refl 0, by norm_num⟩
  · rw [init_eq_spectrum]
    exact ⟨le_refl 0, by norm_num, le_refl 0, by norm_num⟩

theorem reachable_csinv (fftImpl : List ℝ → List ℝ) (P : ℝ → Prop)
    {s : AudioAnalyzer} (h : Reachable fftImpl P s) : ConfigSpectrumInv s := by
  induction h with
  | base mode => exact init_csinv mode
  | push s samples n hr hx ih => exact pushSamples_csinv fftImpl _ _ ih

theorem reachable_levelinv (fftImpl : List ℝ → List ℝ) {s : AudioAnalyzer}
    (h : Reachable fftImpl (fun x => |x| ≤ 1) s) : LevelInv s := by
  induction h with
  | base mode => exact init_levelinv mode
  | push s samples n hr hx ih =>
    obtain ⟨h1, h2, h3, h4⟩ := ih
    have hf := pushSamples_fields fftImpl s samples n
    have hrms := calculateRMS_mem samples n hx
    have hsm := smoothValue_mem h1 h2 hrms.1 hrms.2
    have htk : ∀ x ∈ samples.take n.toNat, |x| ≤ 1 :=
      fun x hx' => hx x (List.mem_of_mem_take hx')
    refine ⟨?_, ?_, ?_, ?_⟩
    · rw [hf.1]; exact hsm.1
    · rw [hf.1]; exact hsm.2
    · rw [hf.2]; exact foldl_max_abs_nonneg _ 0 (le_refl 0)
    · rw [hf.2]; exact foldl_max_abs_le_one _ 0 htk (by norm_num)

end AudioAnalyzer

open AudioAnalyzer

/-- Claim C1, counterexample: the claim promises that for finite-valued
input samples the stored peak stays within `[0,1]`, but the peak is stored
unclamped: pushing the single (finite) sample `2` into a fresh analyzer
stores peak level `2`, which is not `≤ 1`. -/
theorem C1_bounded_counterexample :
    getPeakLevel (pushSamples id (init AnalysisMode.Waveform) [2] 1) = 2 ∧
    ¬ ((2 : ℝ) ≤ 1) := by
  constructor
  · have h := (pushSamples_fields id (init AnalysisMode.Waveform) [2] 1).2
    unfold getPeakLevel
    rw [h]
    norm_num [List.foldl_cons, List.foldl_nil, abs_of_nonneg]
  · norm_num

/-- Claim C1 (amended): when every pushed sample is bounded by `1` in
absolute value (standard audio full scale), every published value stays in
`[0,1]` — each stored smoothed spectrum bin, the stored RMS returned by
`getRMSLevel`, and the stored peak returned by `getPeakLevel`; moreover the
spectrum bins stay in `[0,1]` even for arbitrary unbounded finite samples
(only RMS and peak need the amplitude bound). -/
theorem C1_bounded_output (fftImpl : List ℝ → List ℝ)
    (s t : AudioAnalyzer) (hs : Reachable fftImpl (fun x => |x| ≤ 1) s)
    (ht : Reachable fftImpl (fun _ => True) t) :
    ((∀ v ∈ s.smoothedFrequencyData, 0 ≤ v ∧ v ≤ 1) ∧
      0 ≤ getRMSLevel s ∧ getRMSLevel s ≤ 1 ∧
      0 ≤ getPeakLevel s ∧ getPeakLevel s ≤ 1) ∧
    (∀ v ∈ t.smoothedFrequencyData, 0 ≤ v ∧ v ≤ 1) := by
  have h1 := reachable_csinv fftImpl _ hs
  have h2 := reachable_levelinv fftImpl hs
  have h3 := reachable_csinv fftImpl _ ht
  exact ⟨⟨h1.2.2.2, h2.1, h2.2.1, h2.2.2.1, h2.2.2.2⟩, h3.2.2.2⟩

/-- Witness for the amended claim C1 at freshly constructed analyzers. -/
theorem C1_bounded_output_witness :
    ((∀ v ∈ (init AnalysisMode.Waveform).smoothedFrequencyData,
        0 ≤ v ∧ v ≤ 1) ∧
      0 ≤ getRMSLevel (init AnalysisMode.Waveform) ∧
      getRMSLevel (init AnalysisMode.Waveform) ≤ 1 ∧
      0 ≤ getPeakLevel (init AnalysisMode.Waveform) ∧
      getPeakLevel (init AnalysisMode.Waveform) ≤ 1) ∧
    (∀ v ∈ (init AnalysisMode.Spectrum).smoothedFrequencyData,
      0 ≤ v ∧ v ≤ 1) :=
  C1_bounded_output id _ _ (Reachable.base AnalysisMode.Waveform)
    (Reachable.base AnalysisMode.Spectrum)

/-- Claim C2: from a freshly constructed analyzer, pushing exactly
`fftSize` samples performs exactly one spectral transform and leaves the
cursor reset to `0`; pushing `2*fftSize` samples performs exactly two;
pushing `fftSize - 1` samples performs zero; and from any state whose
cursor is below the frame size, the cursor after any `pushSamples` call is
again below the frame size (each transform resets it to zero), so it never
exceeds the frame size. -/
theorem C2_frame_trigger (fftImpl : List ℝ → List ℝ) (mode : AnalysisMode) :
    (∀ samples : List ℝ, samples.length = (init mode).fftSize →
      (pushSamples fftImpl (init mode) samples
        (samples.length : ℤ)).fftCount = 1 ∧
      (pushSamples fftImpl (init mode) samples
        (samples.length : ℤ)).fifoIndex = 0) ∧
    (∀ samples : List ℝ, samples.length = 2 * (init mode).fftSize →
      (pushSamples fftImpl (init mode) samples
        (samples.length : ℤ)).fftCount = 2 ∧
      (pushSamples fftImpl (init mode) samples
        (samples.length : ℤ)).fifoIndex = 0) ∧
    (∀ samples : List ℝ, samples.length = (init mode).fftSize - 1 →
      (pushSamples fftImpl (init mode) samples
        (samples.length : ℤ)).fftCount = 0) ∧
    (∀ (s : AudioAnalyzer) (samples : List ℝ) (n : ℤ),
      0 < s.fftSize → s.fifoIndex < s.fftSize →
      (pushSamples fftImpl s samples n).fifoIndex < s.fftSize) := by
  have hN := init_fftSize_pos mode
  have hidx : (init mode).fifoIndex < (init mode).fftSize := hN
  have hz : (init mode).fifoIndex = 0 := rfl
  have hc0 : (init mode).fftCount = 0 := rfl
  refine ⟨?_, ?_, ?_, ?_⟩
  · intro samples hlen
    have ht : samples.take ((samples.length : ℤ)).toNat = samples := by
      rw [Int.toNat_natCast, List.take_length]
    have hc := pushSamples_counts fftImpl (init mode) samples
      (samples.length : ℤ) hN hidx
    rw [ht, hz, hc0] at hc
    constructor
    · rw [hc.2.1, hlen, Nat.zero_add, Nat.zero_add, Nat.div_self hN]
    · rw [hc.1, hlen, Nat.zero_add, Nat.mod_self]
  · intro samples hlen
    have ht : samples.take ((samples.length : ℤ)).toNat = samples := by
      rw [Int.toNat_natCast, List.take_length]
    have hc := pushSamples_counts fftImpl (init mode) samples
      (samples.length : ℤ) hN hidx
    rw [ht, hz, hc0] at hc
    constructor
    · rw [hc.2.1, hlen, Nat.zero_add, Nat.zero_add,
        Nat.mul_div_cancel 2 hN]
    · rw [hc.1, hlen, Nat.zero_add, Nat.mul_comm,
        Nat.mul_mod_right]
  · intro samples hlen
    have ht : samples.take ((samples.length : ℤ)).toNat = samples := by
      rw [Int.toNat_natCast, List.take_length]
    have hc := pushSamples_counts fftImpl (init mode) samples
      (samples.length : ℤ) hN hidx
    rw [ht, hz, hc0] at hc
    rw [hc.2.1, hlen, Nat.zero_add, Nat.zero_add,
      Nat.div_eq_of_lt (by omega)]
  · intro s samples n hNs hidxs
    rw [(pushSamples_counts fftImpl s samples n hNs hidxs).1]
    exact Nat.mod_lt _ hNs

/-- Witness for claim C2: a frame of 256 zero samples pushed into a fresh
waveform-mode analyzer triggers exactly one transform and resets the
cursor. -/
theorem C2_frame_trigger_witness :
    (List.replicate 256 (0 : ℝ)).length =
      (init AnalysisMode.Waveform).fftSize ∧
    (pushSamples id (init AnalysisMode.Waveform) (List.replicate 256 (0 : ℝ))
      ((List.replicate 256 (0 : ℝ)).length : ℤ)).fftCount = 1 ∧
    (pushSamples id (init AnalysisMode.Waveform) (List.replicate 256 (0 : ℝ))
      ((List.replicate 256 (0 : ℝ)).length : ℤ)).fifoIndex = 0 :=
  ⟨by rw [List.length_replicate, init_eq_waveform],
   ((C2_frame_trigger id AnalysisMode.Waveform).1 (List.replicate 256 0)
     (by rw [List.length_replicate, init_eq_waveform])).1,
   ((C2_frame_trigger id AnalysisMode.Waveform).1 (List.replicate 256 0)
     (by rw [List.length_replicate, init_eq_waveform])).2⟩

/-- Claim C3, counterexample: calling `pushSamples` with `count = 0` is not
a no-op on observable state.  From a fresh waveform analyzer, pushing the
single sample `1` stores peak level `1`; the subsequent call with zero
samples overwrites the stored peak with `0`. -/
theorem C3_nonpos_counterexample :
    getPeakLevel pushedOne = 1 ∧
    getPeakLevel (pushSamples id pushedOne [] 0) = 0 ∧ (1 : ℝ) ≠ 0 := by
  refine ⟨?_, ?_, by norm_num⟩
  · have h := (pushSamples_fields id (init AnalysisMode.Waveform) [1] 1).2
    unfold pushedOne getPeakLevel
    rw [h]
    norm_num [List.foldl_cons, List.foldl_nil, abs_of_nonneg]
  · rw [show getPeakLevel (pushSamples id pushedOne [] 0) =
      (pushSamples id pushedOne [] 0).peakLevel from rfl,
      pushSamples_nonpos id pushedOne [] 0 (le_refl 0)]

/-- Claim C3 (amended): for every state, `pushSamples` with `count ≤ 0`
signals no error and leaves the fifo, the accumulation cursor, the spectrum
and the configuration unchanged, but it does write the level stores: the
stored peak is overwritten with `0` and the stored RMS is smoothed toward
an instantaneous RMS of `0`, becoming `4/5` of its previous value. -/
theorem C3_nonpos_behaviour (fftImpl : List ℝ → List ℝ) (s : AudioAnalyzer)
    (samples : List ℝ) (n : ℤ) (hn : n ≤ 0) :
    pushSamples fftImpl s samples n =
      { s with smoothedRMS := s.smoothedRMS * (4 / 5)
               peakLevel := 0 } := by
  rw [pushSamples_nonpos fftImpl s samples n hn, smoothValue_zero]

/-- Witness for the amended claim C3 at a concrete state with nonzero
stored levels. -/
theorem C3_nonpos_behaviour_witness :
    (0 : ℤ) ≤ 0 ∧
    pushSamples id pushedOne [] 0 =
      { pushedOne with smoothedRMS := pushedOne.smoothedRMS * (4 / 5)
                       peakLevel := 0 } :=
  ⟨le_refl 0, C3_nonpos_behaviour id pushedOne [] 0 (le_refl 0)⟩

/-- Claim C4 (code bug): the constructor never allocates the mono mixdown
scratch buffer — its length is `0` in every freshly constructed analyzer,
contradicting the source comment that it is "sized to kMaxBufferSize in
constructor" (`kMaxBufferSize` is not even defined in the repository).
Consequently a two-channel block with one sample drives `processBlock` into
an out-of-bounds write on the empty scratch buffer (modelled as `none`),
for every positive choice of the `kMaxBufferSize` bound, instead of the
truncate-and-process behaviour the claim describes. -/
theorem C4_mixdown_out_of_bounds :
    (∀ mode : AnalysisMode, (init mode).monoMixBuffer = []) ∧
    (∀ kMaxBufferSize : ℕ, 1 ≤ kMaxBufferSize →
      processBlock id kMaxBufferSize (init AnalysisMode.Waveform)
        [[1], [1]] 1 = none) := by
  constructor
  · intro mode
    rfl
  · intro kMax hk
    simp only [processBlock]
    rw [if_neg (by norm_num), if_neg (by norm_num),
      if_neg (by
        rw [show (init AnalysisMode.Waveform).monoMixBuffer = [] from rfl]
        rw [List.length_nil, Nat.le_zero]
        omega)]

/-- Witness for claim C4 at the concrete bound `kMaxBufferSize = 1`. -/
theorem C4_mixdown_out_of_bounds_witness :
    1 ≤ 1 ∧
    processBlock id 1 (init AnalysisMode.Waveform) [[1], [1]] 1 = none :=
  ⟨le_refl 1, C4_mixdown_out_of_bounds.2 1 (le_refl 1)⟩

/-- Claim C9: every operation preserves the state invariant — smoothing
time constant in `[0,1]`, sensitivity `≥ 0`, every stored bin in `[0,1]`.
The constructor establishes it, `pushSamples` and `processBlock` preserve
it, the setters clamp out-of-range arguments (never signalling an error),
and each spectral update keeps every bin in `[0,1]` whenever the smoothing
constant is in `[0,1]`. -/
theorem C9_invariant_preservation :
    (∀ mode : AnalysisMode, ConfigSpectrumInv (init mode)) ∧
    (∀ (fftImpl : List ℝ → List ℝ) (s : AudioAnalyzer) (samples : List ℝ)
      (n : ℤ), ConfigSpectrumInv s →
      ConfigSpectrumInv (pushSamples fftImpl s samples n)) ∧
    (∀ (fftImpl : List ℝ → List ℝ) (kMax : ℕ) (s : AudioAnalyzer)
      (channels : List (List ℝ)) (numSamples : ℕ) (s' : AudioAnalyzer),
      ConfigSpectrumInv s →
      processBlock fftImpl kMax s channels numSamples = some s' →
      ConfigSpectrumInv s') ∧
    (∀ (s : AudioAnalyzer) (v : ℝ), ConfigSpectrumInv s →
      ConfigSpectrumInv (setSmoothingTimeConstant s v) ∧
      (setSmoothingTimeConstant s v).smoothingTimeConstant = jlimit 0 1 v) ∧
    (∀ (s : AudioAnalyzer) (v : ℝ), ConfigSpectrumInv s →
      ConfigSpectrumInv (setSensitivity s v) ∧
      (setSensitivity s v).sensitivity = max 0 v) ∧
    (∀ (s : AudioAnalyzer) (fftData : List ℝ),
      0 ≤ s.smoothingTimeConstant → s.smoothingTimeConstant ≤ 1 →
      BinsInv s → BinsInv (updateSmoothedData s fftData)) := by
  refine ⟨init_csinv, ?_, ?_, ?_, ?_, ?_⟩
  · intro fftImpl s samples n h
    exact pushSamples_csinv fftImpl samples n h
  · intro fftImpl kMax s channels numSamples s' h hps
    simp only [processBlock] at hps
    split_ifs at hps with h1 h2 h3
    · obtain rfl := Option.some.inj hps
      exact h
    · obtain rfl := Option.some.inj hps
      exact pushSamples_csinv fftImpl _ _ h
    · obtain rfl := Option.some.inj hps
      obtain ⟨ha, hb, hc, hd⟩ := h
      exact pushSamples_csinv fftImpl _ _ ⟨ha, hb, hc, hd⟩
  · intro s v h
    obtain ⟨h0, h1, h2, hb⟩ := h
    have hj := jlimit_mem v (by norm_num : (0 : ℝ) ≤ 1)
    exact ⟨⟨hj.1, hj.2, h2, hb⟩, rfl⟩
  · intro s v h
    obtain ⟨h0, h1, h2, hb⟩ := h
    exact ⟨⟨h0, h1, le_max_left 0 v, hb⟩, rfl⟩
  · intro s fftData h0 h1 hb
    exact updateSmoothedData_bins fftData h0 h1 hb

/-- Witness for claim C9: the invariant holds of a fresh analyzer and is
preserved by a concrete push and by concrete setter calls with
out-of-range arguments. -/
theorem C9_invariant_preservation_witness :
    ConfigSpectrumInv (init AnalysisMode.Waveform) ∧
    ConfigSpectrumInv (pushSamples id (init AnalysisMode.Waveform) [5] 1) ∧
    ConfigSpectrumInv
      (setSmoothingTimeConstant (init AnalysisMode.Waveform) 7) ∧
    ConfigSpectrumInv (setSensitivity (init AnalysisMode.Waveform) (-3)) :=
  ⟨init_csinv _,
   C9_invariant_preservation.2.1 id _ [5] 1 (init_csinv _),
   (C9_invariant_preservation.2.2.2.1 (init AnalysisMode.Waveform) 7
     (init_csinv _)).1,
   (C9_invariant_preservation.2.2.2.2.1 (init AnalysisMode.Waveform) (-3)
     (init_csinv _)).1⟩

/-- Claim C5, counterexample: the claim (following the spec) says the
second part of the mirrored output is the forward *right* half of the
5%-40% sub-range, with output positions `k` and `length-1-k` drawn from
bins placed symmetrically about the sub-range's center.  On a spectrum with
128 pairwise distinct bins this fails: at output position 22 the source
emits bin 6 (the first bin of the *left* half again), while the
specification's construction emits bin 28, a different value. -/
theorem C5_mirrored_counterexample :
    getMirroredFrequencyData distinctState ≠
      specMirroredFrequencyData distinctState := by
  have hfreq : distinctState.getFrequencyData =
      (List.range 128).map fun i : ℕ => (i : ℝ) / 128 := by
    unfold getFrequencyData
    rw [if_pos (show distinctState.sensitivity = 1 from rfl)]
    rfl
  have hlen : distinctState.getFrequencyData.length = 128 := by
    rw [hfreq, List.length_map, List.length_range]
  have hval : ∀ j : ℕ, j < 128 →
      distinctState.getFrequencyData.getD j 0 = (j : ℝ) / 128 := by
    intro j hj
    rw [hfreq]
    exact getD_map_range _ 0 hj
  have hmh : mirrorHalf distinctState =
      (List.range 22).map fun i =>
        distinctState.getFrequencyData.getD
          (distinctState.getFrequencyData.length * 5 / 100 + i) 0 := by
    simp only [mirrorHalf]
    rw [hlen]
  have hlenmh : (mirrorHalf distinctState).length = 22 := by
    rw [hmh, List.length_map, List.length_range]
  have h0 : (mirrorHalf distinctState)[0]? = some ((6 : ℝ) / 128) := by
    rw [hmh, List.getElem?_map,
      List.getElem?_range (by norm_num : (0 : ℕ) < 22), Option.map_some']
    rw [hlen]
    rw [Nat.add_zero]
    rw [hval (128 * 5 / 100) (by norm_num)]
    norm_num
  have hact : (getMirroredFrequencyData distinctState)[22]? =
      some ((6 : ℝ) / 128) := by
    rw [mirrored_structure, List.getElem?_append_right
      (by simp [hlenmh] : (mirrorHalf distinctState).reverse.length ≤ 22)]
    have h22 : 22 - (mirrorHalf distinctState).reverse.length = 0 := by
      simp [hlenmh]
    rw [h22, h0]
  have hspec : (specMirroredFrequencyData distinctState)[22]? =
      some ((28 : ℝ) / 128) := by
    simp only [specMirroredFrequencyData]
    rw [hlen]
    norm_num
    have hsub : ((distinctState.getFrequencyData.drop 6).take 45).length =
        45 := by
      rw [List.length_take, List.length_drop, hlen]
      omega
    have htk : (((distinctState.getFrequencyData.drop 6).take 45).take
        22).reverse.length = 22 := by
      rw [List.length_reverse, List.length_take, hsub]
      omega
    rw [List.getElem?_append_right (by rw [htk])]
    rw [htk]
    rw [List.getElem?_drop]
    rw [List.getElem?_take]
    rw [if_pos (by norm_num : 22 + (22 - 22) < 45)]
    rw [List.getElem?_drop]
    rw [hfreq, List.getElem?_map,
      List.getElem?_range (by norm_num : 6 + (22 + (22 - 22)) < 128),
      Option.map_some']
    norm_num
  intro h
  have hc := congrArg (fun l => l[22]?) h
  simp only at hc
  rw [hact, hspec] at hc
  have hv := Option.some.inj hc
  norm_num at hv

/-- Claim C5 (amended): `getMirroredFrequencyData` selects the sub-range
from 5% to 40% of the bin count and outputs the reversed *left* half of
that sub-range followed by the same left half forward again — not the
right half; output position `k` and position `length-1-k` therefore come
from the *same* source bin, and the right half of the sub-range is never
emitted. -/
theorem C5_mirrored_structure (s : AudioAnalyzer) :
    getMirroredFrequencyData s = (mirrorHalf s).reverse ++ mirrorHalf s :=
  mirrored_structure s

/-- Claim C10: the mirrored output is a raw-value palindrome of even
length `2 * ((⌊0.40·binCount⌋ - ⌊0.05·binCount⌋) / 2)`, and
`output[k] = output[length-1-k]` at every position, for every state and
sensitivity — even when all underlying bin values are pairwise
distinct. -/
theorem C10_mirrored_palindrome (s : AudioAnalyzer) :
    (getMirroredFrequencyData s).length =
      2 * ((s.smoothedFrequencyData.length * 40 / 100 -
        s.smoothedFrequencyData.length * 5 / 100) / 2) ∧
    ∀ k, k < (getMirroredFrequencyData s).length →
      (getMirroredFrequencyData s)[k]? =
        (getMirroredFrequencyData s)[
          (getMirroredFrequencyData s).length - 1 - k]? := by
  constructor
  · rw [mirrored_structure, List.length_append, List.length_reverse,
      mirrorHalf_length, getFrequencyData_length]
    omega
  · intro k hk
    rw [mirrored_structure] at hk ⊢
    exact reverse_append_self_palindrome (mirrorHalf s) k hk

/-- Witness for claim C10 at a fresh waveform-mode analyzer (output length
44) and position 0. -/
theorem C10_mirrored_palindrome_witness :
    0 < (getMirroredFrequencyData (init AnalysisMode.Waveform)).length ∧
    (getMirroredFrequencyData (init AnalysisMode.Waveform))[0]? =
      (getMirroredFrequencyData (init AnalysisMode.Waveform))[
        (getMirroredFrequencyData (init AnalysisMode.Waveform)).length -
          1 - 0]? := by
  have hpos : 0 < (getMirroredFrequencyData (init AnalysisMode.Waveform)).length := by
    have h128 : (init AnalysisMode.Waveform).getFrequencyData.length = 128 := by
      rw [getFrequencyData_length]
      show (List.replicate 128 (0 : ℝ)).length = 128
      rw [List.length_replicate]
    rw [mirrored_structure, List.length_append, List.length_reverse,
      mirrorHalf_length, h128]
    norm_num
  exact ⟨hpos, (C10_mirrored_palindrome (init AnalysisMode.Waveform)).2 0 hpos⟩

/-- Claim C8: `getFrequencyData` returns, for each bin, the stored
smoothed value multiplied by the sensitivity and clamped to `[0,1]`
(for stored bins within `[0,1]`, which the state invariant guarantees);
in particular with sensitivity `2` the stored bins `0.4` and `0.6` yield
`0.8` and `1.0` (not `1.2`). -/
theorem C8_sensitivity_scaling :
    (∀ s : AudioAnalyzer, (∀ v ∈ s.smoothedFrequencyData, 0 ≤ v ∧ v ≤ 1) →
      getFrequencyData s =
        s.smoothedFrequencyData.map fun v => jlimit 0 1 (v * s.sensitivity)) ∧
    getFrequencyData sensState = [0.8, 1] := by
  constructor
  · intro s hb
    unfold getFrequencyData
    split_ifs with hs
    · rw [hs]
      have h1 : (s.smoothedFrequencyData.map fun v => jlimit 0 1 (v * 1)) =
          s.smoothedFrequencyData.map id :=
        List.map_congr_left fun v hv => by
          rw [mul_one]
          exact jlimit_of_mem (hb v hv).1 (hb v hv).2
      rw [h1, List.map_id]
    · rfl
  · simp only [sensState, getFrequencyData]
    rw [if_neg (by norm_num)]
    simp only [List.map_cons, List.map_nil]
    norm_num [jlimit]

/-- Witness for claim C8: the invariant hypothesis holds of the concrete
two-bin state, and the getter is the clamped scaling there. -/
theorem C8_sensitivity_scaling_witness :
    (∀ v ∈ sensState.smoothedFrequencyData, 0 ≤ v ∧ v ≤ 1) ∧
    getFrequencyData sensState =
      sensState.smoothedFrequencyData.map fun v =>
        jlimit 0 1 (v * sensState.sensitivity) := by
  have hb : ∀ v ∈ sensState.smoothedFrequencyData, 0 ≤ v ∧ v ≤ 1 := by
    intro v hv
    have hv' : v = (0.4 : ℝ) ∨ v = 0.6 := by
      simpa [sensState] using hv
    rcases hv' with rfl | rfl <;> norm_num
  exact ⟨hb, C8_sensitivity_scaling.1 sensState hb⟩

/-- Claim C6: after each spectral transform, published bin `i` equals
`old_smoothed[i]*k + clamp(2*magnitude[i]/N, 0, 1)*(1-k)`, where
`magnitude[i]` is the windowed FFT magnitude (the transform applied to the
Hann-windowed frame) and `k` the configured smoothing time constant. -/
theorem C6_spectral_update (fftImpl : List ℝ → List ℝ) (s : AudioAnalyzer)
    (i : ℕ) (hi : i < s.fftSize / 2) :
    (performFFT fftImpl s).smoothedFrequencyData.getD i 0 =
      s.smoothedFrequencyData.getD i 0 * s.smoothingTimeConstant +
      jlimit 0 1 ((fftImpl s.windowedFrame).getD i 0 / (s.fftSize : ℝ) * 2) *
        (1 - s.smoothingTimeConstant) := by
  simp only [performFFT, updateSmoothedData]
  rw [getD_map_range _ 0 hi]

/-- Witness for claim C6 at a fresh waveform-mode analyzer, bin 0, with the
identity transform standing in for the external FFT. -/
theorem C6_spectral_update_witness :
    0 < (init AnalysisMode.Waveform).fftSize / 2 ∧
    (performFFT id (init AnalysisMode.Waveform)).smoothedFrequencyData.getD
        0 0 =
      (init AnalysisMode.Waveform).smoothedFrequencyData.getD 0 0 *
        (init AnalysisMode.Waveform).smoothingTimeConstant +
      jlimit 0 1
        ((id (init AnalysisMode.Waveform).windowedFrame).getD 0 0 /
          ((init AnalysisMode.Waveform).fftSize : ℝ) * 2) *
        (1 - (init AnalysisMode.Waveform).smoothingTimeConstant) :=
  ⟨by show 0 < 256 / 2; norm_num,
   C6_spectral_update id (init AnalysisMode.Waveform) 0
     (by show 0 < 256 / 2; norm_num)⟩

/-- Claim C7: with the default sensitivity `1`, `getFrequencyBands` with
`bandCount = 1` over `[lo, hi)` (with `hi` within the bin count) returns
the average over all bins in `[lo, hi)` of the dB-normalized magnitude
(`normalizeDb` of `20*log10(m)`, with exact-zero magnitude mapped to the
`-100` dB floor); `bandCount` equal to the range width assigns exactly one
bin per band; and any band whose chunk contains no bins outputs `0` (for
every sensitivity). -/
theorem C7_band_averaging :
    (∀ (s : AudioAnalyzer) (lo hi : ℕ), lo < hi →
      hi ≤ s.smoothedFrequencyData.length → s.sensitivity = 1 →
      getFrequencyBands s 1 lo hi =
        [((List.range' lo (hi - lo)).map fun j =>
            normalizeDb (dbOfMagnitude
              (s.smoothedFrequencyData.getD j 0))).sum /
          ((hi - lo : ℕ) : ℝ)]) ∧
    (∀ (s : AudioAnalyzer) (lo hi i : ℕ), i < hi - lo →
      hi ≤ s.smoothedFrequencyData.length → s.sensitivity = 1 →
      (getFrequencyBands s (hi - lo) lo hi).getD i 0 =
        normalizeDb (dbOfMagnitude
          (s.smoothedFrequencyData.getD (lo + i) 0))) ∧
    (∀ (s : AudioAnalyzer) (numBands lo hi i : ℕ), i < numBands →
      bandBins s numBands lo hi i = [] →
      (getFrequencyBands s numBands lo hi).getD i 0 = 0) := by
  refine ⟨?_, ?_, ?_⟩
  · intro s lo hi hlt hle hs
    have hbb : bandBins s 1 lo hi 0 = List.range' lo (hi - lo) := by
      simp only [bandBins]
      have h1 : (hi - lo + 1 - 1) / 1 = hi - lo := by omega
      rw [h1]
      have h2 : lo + 0 * (hi - lo) = lo := by omega
      have h3 : min (lo + (0 + 1) * (hi - lo)) hi = hi := by
        have : (0 + 1) * (hi - lo) = hi - lo := by omega
        rw [this]
        omega
      rw [h2, h3]
      rw [List.filter_eq_self.mpr]
      intro j hj
      have hj' := List.mem_range'_1.mp hj
      simp only [decide_eq_true_eq]
      omega
    have hbv : bandValue s 1 lo hi 0 =
        ((List.range' lo (hi - lo)).map fun j =>
          normalizeDb (dbOfMagnitude
            (s.smoothedFrequencyData.getD j 0))).sum / ((hi - lo : ℕ) : ℝ) := by
      simp only [bandValue, hbb]
      rw [if_pos]
      · rw [List.length_range']
      · rw [List.length_range']
        omega
    simp only [getFrequencyBands]
    rw [if_pos hs, show List.range 1 = [0] from by decide, List.map_cons,
      List.map_nil, hbv]
  · intro s lo hi i hii hle hs
    have hw : 0 < hi - lo := by omega
    have hcs : (hi - lo + (hi - lo) - 1) / (hi - lo) = 1 := by
      apply Nat.div_eq_of_lt_le
      · omega
      · omega
    have hbb : bandBins s (hi - lo) lo hi i = [lo + i] := by
      simp only [bandBins, hcs]
      rw [show min (lo + (i + 1) * 1) hi - (lo + i * 1) = 1 from by omega]
      rw [show lo + i * 1 = lo + i from by omega]
      rw [List.range'_one, List.filter_cons]
      rw [if_pos]
      · rfl
      · simp only [decide_eq_true_eq]
        omega
    have hbv : bandValue s (hi - lo) lo hi i =
        normalizeDb (dbOfMagnitude
          (s.smoothedFrequencyData.getD (lo + i) 0)) := by
      simp only [bandValue, hbb]
      rw [if_pos (by norm_num : 0 < ([lo + i] : List ℕ).length)]
      rw [List.map_cons, List.map_nil, List.sum_cons, List.sum_nil,
        add_zero]
      norm_num
    simp only [getFrequencyBands]
    rw [if_pos hs, getD_map_range _ 0 hii, hbv]
  · intro s numBands lo hi i hii hbb
    have hbv : bandValue s numBands lo hi i = 0 := by
      simp only [bandValue, hbb]
      norm_num
    simp only [getFrequencyBands]
    split_ifs with hs
    · rw [getD_map_range _ 0 hii, hbv]
    · rw [List.map_map, getD_map_range _ 0 hii]
      simp only [Function.comp_apply, hbv, zero_mul]
      exact jlimit_of_mem (le_refl 0) (by norm_num)

/-- Witness for claim C7 at a fresh waveform-mode analyzer over the bin
range `[0, 2)` with a single band, plus an empty chunk (band beyond the
range) with band count exceeding the range width. -/
theorem C7_band_averaging_witness :
    ((0 : ℕ) < 2 ∧ 2 ≤ (init AnalysisMode.Waveform).smoothedFrequencyData.length ∧
      (init AnalysisMode.Waveform).sensitivity = 1 ∧
      getFrequencyBands (init AnalysisMode.Waveform) 1 0 2 =
        [((List.range' 0 (2 - 0)).map fun j =>
            normalizeDb (dbOfMagnitude
              ((init AnalysisMode.Waveform).smoothedFrequencyData.getD
                j 0))).sum / ((2 - 0 : ℕ) : ℝ)]) ∧
    (bandBins (init AnalysisMode.Waveform) 3 0 2 2 = [] ∧
      (getFrequencyBands (init AnalysisMode.Waveform) 3 0 2).getD 2 0 = 0) := by
  have hlen : (init AnalysisMode.Waveform).smoothedFrequencyData.length =
      128 := by
    show (List.replicate 128 (0 : ℝ)).length = 128
    rw [List.length_replicate]
  have hle : 2 ≤ (init AnalysisMode.Waveform).smoothedFrequencyData.length := by
    rw [hlen]
    norm_num
  have hempty : bandBins (init AnalysisMode.Waveform) 3 0 2 2 = [] := by
    simp only [bandBins]
    norm_num
  exact ⟨⟨by norm_num, hle, rfl,
    (C7_band_averaging.1 (init AnalysisMode.Waveform) 0 2 (by norm_num) hle
      rfl)⟩,
    hempty,
    C7_band_averaging.2.2 (init AnalysisMode.Waveform) 3 0 2 2 (by norm_num)
      hempty⟩

end shmui
